import Mathlib

/-!
Shallow embedding of the `BackgroundAnimation` particle-field renderer
(the animated canvas background component).

Coordinates, velocities and radii are modelled as rationals (`ℚ`).
`Math.hypot` is modelled as an explicit function parameter `hypot`;
theorems that depend on its value assume, pointwise at the arguments
where the code applies it, that it returns the nonnegative square root
of `dx^2 + dy^2`.

The drawing context is modelled as a list of drawing events: the frame
body (`step`) returns the list of events it emits, in order, together
with the updated particle list.  Scheduling the next animation frame via
`requestAnimationFrame` appears as the `Event.schedule` marker, and the
surrounding `requestAnimationFrame` / `cancelAnimationFrame` /
`ResizeObserver` lifecycle is modelled by the `Sys` state machine below.
-/

namespace ParticleField

/-- A particle, as created in the `particles` array literal:
position `(x, y)`, per-frame velocity `(vx, vy)`, radius `r`. -/
structure Particle where
  x : ℚ
  y : ℚ
  vx : ℚ
  vy : ℚ
  r : ℚ
  deriving DecidableEq

instance : Inhabited Particle := ⟨⟨0, 0, 0, 0, 0⟩⟩

/-- An `rgba(red,green,blue,alpha)` color. -/
structure Rgba where
  red : ℕ
  green : ℕ
  blue : ℕ
  alpha : ℚ
  deriving DecidableEq

/-- One drawing (or scheduling) action performed by the frame body, in
the order the code performs them.
`gradientDisc cx cy discR gradR c0 c1` is the filled arc of radius
`discR` painted with the radial gradient created with outer radius
`gradR`, color stop `c0` at offset 0 and color stop `c1` at offset 1. -/
inductive Event where
  | clearRect : ℚ → ℚ → ℚ → ℚ → Event
  | line : ℚ → ℚ → ℚ → ℚ → Rgba → ℚ → Event
  | gradientDisc : ℚ → ℚ → ℚ → ℚ → Rgba → Rgba → Event
  | solidDisc : ℚ → ℚ → ℚ → Rgba → Event
  | schedule : Event
  deriving DecidableEq

/-- One particle of the initialisation
`Array.from({length: 36}, () => ({...}))`, built from five consecutive
`Math.random()` draws `r0 .. r4` and the window inner dimensions:
`x = r0 * innerWidth`, `y = r1 * innerHeight`,
`vx = (r2 - 0.5) * 0.25`, `vy = (r3 - 0.5) * 0.25`,
`r = 1.2 + r4 * 1.8`. -/
def mkParticle (r0 r1 r2 r3 r4 winW winH : ℚ) : Particle :=
  { x := r0 * winW
    y := r1 * winH
    vx := (r2 - 0.5) * 0.25
    vy := (r3 - 0.5) * 0.25
    r := 1.2 + r4 * 1.8 }

/-- The `particles` array created at mount: 36 particles, particle `k`
consuming the random draws `rand (5*k) .. rand (5*k+4)`. -/
def initParticles (rand : ℕ → ℚ) (winW winH : ℚ) : List Particle :=
  (List.range 36).map fun k =>
    mkParticle (rand (5 * k)) (rand (5 * k + 1)) (rand (5 * k + 2))
      (rand (5 * k + 3)) (rand (5 * k + 4)) winW winH

/-- A random source is valid when every draw lies in `[0, 1)`,
as `Math.random()` guarantees. -/
def validRand (rand : ℕ → ℚ) : Prop := ∀ n, 0 ≤ rand n ∧ rand n < 1

/-- First wrap check of the update, `if (p.x < -20) p.x = w + 20`. -/
def wrapLow (bound x1 : ℚ) : ℚ := if x1 < -20 then bound + 20 else x1

/-- Both wrap checks in source order: after `wrapLow`,
`if (p.x > w + 20) p.x = -20`. -/
def wrapCoord (bound x1 : ℚ) : ℚ :=
  if wrapLow bound x1 > bound + 20 then -20 else wrapLow bound x1

/-- The per-frame particle update, lines 67-72 of the component:
`p.x += p.vx; p.y += p.vy` followed by the four wrap checks. -/
def updateParticle (w h : ℚ) (p : Particle) : Particle :=
  { p with x := wrapCoord w (p.x + p.vx), y := wrapCoord h (p.y + p.vy) }

/-- The link decision for one ordered pair `(p, q)`:
`dist = Math.hypot(p.x - q.x, p.y - q.y)`; when `dist < 120` a line is
stroked from `p` to `q` with style `rgba(0,194,255, (1 - dist/120)*0.35)`
and `lineWidth = 1`, otherwise nothing is drawn. -/
def linkOpt (hypot : ℚ → ℚ → ℚ) (p q : Particle) : Option Event :=
  let dist := hypot (p.x - q.x) (p.y - q.y)
  if dist < 120 then
    some (Event.line p.x p.y q.x q.y ⟨0, 194, 255, (1 - dist / 120) * 0.35⟩ 1)
  else none

/-- The link-drawing double loop,
`for (i = 0; i < n; i++) for (j = i + 1; j < n; j++)`, emitting the
stroked lines in loop order.  `(List.range n).drop (i+1)` is exactly the
index sequence `i+1, …, n-1` of the inner loop. -/
def linkEvents (hypot : ℚ → ℚ → ℚ) (ps : List Particle) : List Event :=
  (List.range ps.length).flatMap fun i =>
    ((List.range ps.length).drop (i + 1)).filterMap fun j =>
      linkOpt hypot (ps.getD i default) (ps.getD j default)

/-- The two draw calls made for a particle after its update: the filled
arc of radius `p.r * 5` painted with
`createRadialGradient(p.x, p.y, 0, p.x, p.y, 16)` whose stops are
`rgba(124,58,237,0.55)` at 0 and `rgba(124,58,237,0)` at 1, followed by
the solid arc of radius `p.r` filled `rgba(0,194,255,0.9)`. -/
def drawParticleCmds (p : Particle) : List Event :=
  [Event.gradientDisc p.x p.y (p.r * 5) 16 ⟨124, 58, 237, 0.55⟩ ⟨124, 58, 237, 0⟩,
   Event.solidDisc p.x p.y p.r ⟨0, 194, 255, 0.9⟩]

/-- The `for (const p of particles)` loop: each particle is updated in
place and immediately drawn; returns the emitted events and the updated
particle list. -/
def particlePass (w h : ℚ) : List Particle → List Event × List Particle
  | [] => ([], [])
  | p :: rest =>
    let p2 := updateParticle w h p
    let done := particlePass w h rest
    (drawParticleCmds p2 ++ done.1, p2 :: done.2)

/-- The frame body `step()`: clear the whole logical area, draw links
from the current (pre-update) positions, update and draw every particle,
then request the next animation frame (the trailing `Event.schedule`). -/
def step (hypot : ℚ → ℚ → ℚ) (w h : ℚ) (ps : List Particle) :
    List Event × List Particle :=
  let pp := particlePass w h ps
  (Event.clearRect 0 0 w h :: (linkEvents hypot ps ++ pp.1 ++ [Event.schedule]),
   pp.2)

/-- The effect of one frame on the particle list alone. -/
def stepParticles (w h : ℚ) (ps : List Particle) : List Particle :=
  (particlePass w h ps).2

/-- `n` frames of particle updates, frame `k` running against the
logical dimensions `dims k` (which may change between frames via
resize). -/
def runFrames (dims : ℕ → ℚ × ℚ) : ℕ → List Particle → List Particle
  | 0, ps => ps
  | n + 1, ps => stepParticles (dims n).1 (dims n).2 (runFrames dims n ps)

/-- All ordered pairs `(x, y)` of a list with `x` strictly before `y`,
in the order the standard nested `i < j` loop visits them. -/
def orderedPairs {α : Type} : List α → List (α × α)
  | [] => []
  | x :: xs => (xs.map fun y => (x, y)) ++ orderedPairs xs

/-- Surface (canvas) state: the logical CSS-space size `w × h`, the
device pixel ratio captured in the closure variable `dpi`, the physical
backing-buffer size `canvas.width × canvas.height`, and the scale factor
of the current context transform. -/
structure Surface where
  dpi : ℚ
  w : ℚ
  h : ℚ
  bufW : ℤ
  bufH : ℤ
  tScale : ℚ
  deriving DecidableEq

/-- Mount-time surface state:
`let dpi = Math.max(1, window.devicePixelRatio || 1)` with `deviceDpr`
the environment's device pixel ratio at mount; sizes start at 0 and the
context transform starts as the identity. -/
def mountSurface (deviceDpr : ℚ) : Surface :=
  { dpi := max 1 deviceDpr, w := 0, h := 0, bufW := 0, bufH := 0, tScale := 1 }

/-- The `resize()` handler: re-read the container's client size, set the
backing buffer to `Math.floor(size * dpi)` using the closure's `dpi`
(captured at mount and never re-read), and reapply
`ctx.setTransform(dpi, 0, 0, dpi, 0, 0)`. -/
def resize (clientW clientH : ℚ) (s : Surface) : Surface :=
  { s with
    w := clientW
    h := clientH
    bufW := ⌊clientW * s.dpi⌋
    bufH := ⌊clientH * s.dpi⌋
    tScale := s.dpi }

/-- Following the claim's words (for comparison with `resize`): a resize
handler that re-reads the device pixel ratio from the host environment
(`currentDpr`) on every resize notification and uses that fresh value
for the buffer size and the transform. -/
def resizeRereadingDpr (currentDpr clientW clientH : ℚ) (s : Surface) : Surface :=
  { s with
    dpi := max 1 currentDpr
    w := clientW
    h := clientH
    bufW := ⌊clientW * max 1 currentDpr⌋
    bufH := ⌊clientH * max 1 currentDpr⌋
    tScale := max 1 currentDpr }

/-- The renderer lifecycle state: the host scheduler's pending
animation-frame handle (if one is requested and not yet run), the last
handle stored in `rafRef.current`, a fresh-handle counter, whether the
`ResizeObserver` is still connected, how many times `step` has run, the
accumulated drawing log, and the simulation state. -/
structure Sys where
  pending : Option ℕ
  rafRef : ℕ
  nextH : ℕ
  roConnected : Bool
  stepCount : ℕ
  log : List Event
  particles : List Particle
  w : ℚ
  h : ℚ

/-- `rafRef.current = requestAnimationFrame(step)`: the host returns a
fresh handle, records the callback as pending, and the component stores
the handle. -/
def requestFrame (s : Sys) : Sys :=
  { s with pending := some s.nextH, rafRef := s.nextH, nextH := s.nextH + 1 }

/-- One invocation of `step()`: run the frame body (appending its events
to the log and updating the particles), then request the next frame. -/
def runStep (hypot : ℚ → ℚ → ℚ) (s : Sys) : Sys :=
  let out := step hypot s.w s.h s.particles
  requestFrame
    { s with
      log := s.log ++ out.1
      particles := out.2
      stepCount := s.stepCount + 1 }

/-- The host scheduler fires the pending animation frame, if any: the
pending entry is consumed and the registered callback (`step`) runs.
With no pending frame nothing happens. -/
def fire (hypot : ℚ → ℚ → ℚ) (s : Sys) : Sys :=
  match s.pending with
  | some _ => runStep hypot { s with pending := none }
  | none => s

/-- `n` scheduler firings in sequence. -/
def fireN (hypot : ℚ → ℚ → ℚ) : ℕ → Sys → Sys
  | 0, s => s
  | n + 1, s => fire hypot (fireN hypot n s)

/-- The mount effect: observer connected, `resize()` applied (the
logical size `w × h` is the canvas client size), then `step()` called
directly once, which draws and schedules the first animation frame. -/
def mount (hypot : ℚ → ℚ → ℚ) (ps : List Particle) (w h : ℚ) : Sys :=
  runStep hypot
    { pending := none, rafRef := 0, nextH := 1, roConnected := true,
      stepCount := 0, log := [], particles := ps, w := w, h := h }

/-- The effect cleanup: `cancelAnimationFrame(rafRef.current)` (removes
the pending entry exactly when its handle is the stored one) and
`ro.disconnect()`. -/
def unmount (s : Sys) : Sys :=
  let s2 := if s.pending = some s.rafRef then { s with pending := none } else s
  { s2 with roConnected := false }

/-- A position inside the expanded bounding box of a `w × h` surface. -/
def inBox (w h : ℚ) (p : Particle) : Prop :=
  -20 ≤ p.x ∧ p.x ≤ w + 20 ∧ -20 ≤ p.y ∧ p.y ≤ h + 20

/-- A position outside the expanded bounding box of a `w × h` surface. -/
def outsideBox (w h : ℚ) (p : Particle) : Prop :=
  p.x < -20 ∨ w + 20 < p.x ∨ p.y < -20 ∨ h + 20 < p.y

/-- The wraparound contract of one particle update against a `w × h`
surface: the updated position is in the expanded box; a coordinate
overshooting the high margin lands exactly on `-20`; one undershooting
the low margin lands exactly on the high margin; an in-range coordinate
is the plain translate `x + vx` (never clamped, never reflected). -/
def wrapContract (w h : ℚ) (p : Particle) : Prop :=
  inBox w h (updateParticle w h p) ∧
  (w + 20 < p.x + p.vx → (updateParticle w h p).x = -20) ∧
  (p.x + p.vx < -20 → (updateParticle w h p).x = w + 20) ∧
  (h + 20 < p.y + p.vy → (updateParticle w h p).y = -20) ∧
  (p.y + p.vy < -20 → (updateParticle w h p).y = h + 20) ∧
  (-20 ≤ p.x + p.vx → p.x + p.vx ≤ w + 20 → (updateParticle w h p).x = p.x + p.vx) ∧
  (-20 ≤ p.y + p.vy → p.y + p.vy ≤ h + 20 → (updateParticle w h p).y = p.y + p.vy)

/-- The link contract for one pair `(p, q)`: a line is emitted exactly
when the squared Euclidean distance is below `120^2` (equivalently, the
distance is strictly below 120); at squared distance exactly `120^2` no
line is emitted; an emitted line runs from `p` to `q` with width 1,
color channels `(0,194,255)` and opacity `(1 - dist/120) * 0.35`. -/
def linkContract (hypot : ℚ → ℚ → ℚ) (p q : Particle) : Prop :=
  ((linkOpt hypot p q).isSome ↔ (p.x - q.x) ^ 2 + (p.y - q.y) ^ 2 < 14400) ∧
  ((p.x - q.x) ^ 2 + (p.y - q.y) ^ 2 = 14400 → linkOpt hypot p q = none) ∧
  ∀ e, linkOpt hypot p q = some e →
    e = Event.line p.x p.y q.x q.y
      ⟨0, 194, 255, (1 - hypot (p.x - q.x) (p.y - q.y) / 120) * 0.35⟩ 1

/-- The initialisation contract: 36 particles, positions uniform over
the window `[0, winW) × [0, winH)`, velocity components in
`[-0.125, 0.125)`, radii in `[1.2, 3)`. -/
def initContract (rand : ℕ → ℚ) (winW winH : ℚ) : Prop :=
  (initParticles rand winW winH).length = 36 ∧
  ∀ p ∈ initParticles rand winW winH,
    0 ≤ p.x ∧ p.x < winW ∧ 0 ≤ p.y ∧ p.y < winH ∧
    -0.125 ≤ p.vx ∧ p.vx < 0.125 ∧ -0.125 ≤ p.vy ∧ p.vy < 0.125 ∧
    1.2 ≤ p.r ∧ p.r < 3

/-- Per-particle constancy across frames: after any number of frames
(under arbitrary per-frame dimensions) the particle at index `i` keeps
the velocity components and radius it was created with, a single update
leaves `vx`, `vy` and `r` untouched, and one frame advances the particle
at index `i` by exactly one application of `updateParticle`. -/
def staticFieldsContract (dims : ℕ → ℚ × ℚ) (n : ℕ) (ps : List Particle)
    (i : ℕ) (w h : ℚ) (p : Particle) : Prop :=
  ((runFrames dims n ps).getD i default).vx = (ps.getD i default).vx ∧
  ((runFrames dims n ps).getD i default).vy = (ps.getD i default).vy ∧
  ((runFrames dims n ps).getD i default).r = (ps.getD i default).r ∧
  (updateParticle w h p).vx = p.vx ∧
  (updateParticle w h p).vy = p.vy ∧
  (updateParticle w h p).r = p.r ∧
  (stepParticles w h ps).getD i default =
    updateParticle w h (ps.getD i default)

/-- The two draw events a frame emits for one particle, located inside
the frame's event list: the gradient disc of radius `5 r` whose gradient
reaches its transparent stop at the fixed radius 16, immediately
followed by the solid cyan disc of radius `r`, both centered at the
updated position. -/
def gradientContract (hypot : ℚ → ℚ → ℚ) (w h : ℚ) (ps : List Particle)
    (p : Particle) : Prop :=
  ∃ l1 l2, (step hypot w h ps).1 =
    l1 ++ (Event.gradientDisc (updateParticle w h p).x (updateParticle w h p).y
            ((updateParticle w h p).r * 5) 16
            ⟨124, 58, 237, 0.55⟩ ⟨124, 58, 237, 0⟩ ::
          Event.solidDisc (updateParticle w h p).x (updateParticle w h p).y
            (updateParticle w h p).r ⟨0, 194, 255, 0.9⟩ :: l2)

/-- The claim-C10 contract against a `w × h` surface: some valid random
source and window dimensions put a freshly initialised particle outside
the surface's expanded box, while a single update always re-establishes
the box (sending out-of-range coordinates to the opposite margin edge). -/
def lateBoxContract (w h : ℚ) : Prop :=
  (∃ rand winW winH, validRand rand ∧
    ∃ p ∈ initParticles rand winW winH, outsideBox w h p) ∧
  ∀ p : Particle, wrapContract w h p

/-! ## Helper lemmas -/

theorem wrapCoord_mem_of_nonneg (bound x1 : ℚ) (hb : 0 ≤ bound) :
    -20 ≤ wrapCoord bound x1 ∧ wrapCoord bound x1 ≤ bound + 20 := by
  unfold wrapCoord wrapLow
  split_ifs <;> constructor <;> linarith

theorem wrapCoord_high (bound x1 : ℚ) (hb : 0 ≤ bound) (hx : bound + 20 < x1) :
    wrapCoord bound x1 = -20 := by
  unfold wrapCoord wrapLow
  split_ifs <;> first | rfl | linarith

theorem wrapCoord_low (bound x1 : ℚ) (hx : x1 < -20) :
    wrapCoord bound x1 = bound + 20 := by
  unfold wrapCoord wrapLow
  split_ifs <;> first | rfl | linarith

theorem wrapCoord_id (bound x1 : ℚ) (h1 : -20 ≤ x1) (h2 : x1 ≤ bound + 20) :
    wrapCoord bound x1 = x1 := by
  unfold wrapCoord wrapLow
  split_ifs <;> first | rfl | linarith

theorem updateParticle_x (w h : ℚ) (p : Particle) :
    (updateParticle w h p).x = wrapCoord w (p.x + p.vx) := rfl

theorem updateParticle_y (w h : ℚ) (p : Particle) :
    (updateParticle w h p).y = wrapCoord h (p.y + p.vy) := rfl

theorem updateParticle_vx (w h : ℚ) (p : Particle) :
    (updateParticle w h p).vx = p.vx := rfl

theorem updateParticle_vy (w h : ℚ) (p : Particle) :
    (updateParticle w h p).vy = p.vy := rfl

theorem updateParticle_r (w h : ℚ) (p : Particle) :
    (updateParticle w h p).r = p.r := rfl

theorem wrapContract_of_nonneg (w h : ℚ) (p : Particle) (hw : 0 ≤ w)
    (hh : 0 ≤ h) : wrapContract w h p := by
  refine ⟨⟨?_, ?_, ?_, ?_⟩, ?_, ?_, ?_, ?_, ?_, ?_⟩ <;>
    simp only [updateParticle_x, updateParticle_y]
  · exact (wrapCoord_mem_of_nonneg w (p.x + p.vx) hw).1
  · exact (wrapCoord_mem_of_nonneg w (p.x + p.vx) hw).2
  · exact (wrapCoord_mem_of_nonneg h (p.y + p.vy) hh).1
  · exact (wrapCoord_mem_of_nonneg h (p.y + p.vy) hh).2
  · exact wrapCoord_high w (p.x + p.vx) hw
  · exact wrapCoord_low w (p.x + p.vx)
  · exact wrapCoord_high h (p.y + p.vy) hh
  · exact wrapCoord_low h (p.y + p.vy)
  · exact wrapCoord_id w (p.x + p.vx)
  · exact wrapCoord_id h (p.y + p.vy)

theorem particlePass_eq (w h : ℚ) (ps : List Particle) :
    particlePass w h ps =
      ((ps.map (updateParticle w h)).flatMap drawParticleCmds,
       ps.map (updateParticle w h)) := by
  induction ps with
  | nil => rfl
  | cons p rest ih => simp [particlePass, ih]

theorem stepParticles_eq_map (w h : ℚ) (ps : List Particle) :
    stepParticles w h ps = ps.map (updateParticle w h) := by
  simp [stepParticles, particlePass_eq]

theorem step_events (hypot : ℚ → ℚ → ℚ) (w h : ℚ) (ps : List Particle) :
    (step hypot w h ps).1 =
      Event.clearRect 0 0 w h ::
        (linkEvents hypot ps ++
          (ps.map (updateParticle w h)).flatMap drawParticleCmds ++
          [Event.schedule]) ∧
    (step hypot w h ps).2 = ps.map (updateParticle w h) := by
  simp [step, particlePass_eq]

theorem filterMap_range_getD {α β : Type} (f : α → Option β) (xs : List α)
    (d : α) :
    (List.range xs.length).filterMap (fun j => f (xs.getD j d)) =
      xs.filterMap f := by
  induction xs with
  | nil => rfl
  | cons x rest ih =>
    simp only [List.length_cons, List.range_succ_eq_map,
      List.filterMap_cons, List.filterMap_map]
    have hcomp :
        ((fun j => f ((x :: rest).getD j d)) ∘ Nat.succ) =
          fun j => f (rest.getD j d) := by
      funext j
      simp [List.getD]
    rw [hcomp, ih]
    simp [List.getD]

theorem linkEvents_cons (hypot : ℚ → ℚ → ℚ) (p : Particle)
    (rest : List Particle) :
    linkEvents hypot (p :: rest) =
      rest.filterMap (linkOpt hypot p) ++ linkEvents hypot rest := by
  unfold linkEvents
  simp only [List.length_cons, List.range_succ_eq_map, List.flatMap_cons,
    List.flatMap_map, List.drop_succ_cons, List.drop_zero,
    List.filterMap_map, Function.comp, List.getD_cons_zero,
    List.getD_cons_succ, Nat.succ_eq_add_one]
  congr 1
  · exact filterMap_range_getD (linkOpt hypot p) rest default
  · apply List.flatMap_congr
    intro i _
    rw [← List.map_drop, List.filterMap_map]
    congr 1

theorem linkEvents_eq_orderedPairs (hypot : ℚ → ℚ → ℚ) (ps : List Particle) :
    linkEvents hypot ps =
      (orderedPairs ps).filterMap fun pr => linkOpt hypot pr.1 pr.2 := by
  induction ps with
  | nil => rfl
  | cons p rest ih =>
    rw [linkEvents_cons, orderedPairs, List.filterMap_append,
      List.filterMap_map, ih]
    rfl

/-! ## Claim theorems -/

/-- Claim C1: for every particle, after its per-frame position update the
x coordinate lies in `[-20, w+20]` and the y coordinate in `[-20, h+20]`;
a coordinate that exceeds the high margin is set to exactly `-20`, one
that falls below `-20` is set to exactly the high margin, and an in-range
coordinate is left at the plain translate — the position is wrapped
toroidally, never clamped and never reflected. -/
theorem C1_wraparound (w h : ℚ) (p : Particle) (hw : 0 ≤ w) (hh : 0 ≤ h) :
    wrapContract w h p :=
  wrapContract_of_nonneg w h p hw hh

theorem C1_wraparound_witness :
    0 ≤ (100 : ℚ) ∧ 0 ≤ (50 : ℚ) ∧ wrapContract 100 50 ⟨130, -30, 1, 1, 2⟩ :=
  ⟨by norm_num, by norm_num,
   C1_wraparound 100 50 ⟨130, -30, 1, 1, 2⟩ (by norm_num) (by norm_num)⟩

/-- Claim C2: a connecting line between two particles is drawn iff the
Euclidean distance between them is strictly less than 120 (stated as the
squared distance being below `120^2`, equivalent for the nonnegative
root `hypot` returns); at distance exactly 120 no link is drawn; a drawn
link has stroke color channels `(0,194,255)`, opacity
`(1 - dist/120) * 0.35` and line width 1. -/
theorem C2_link_threshold (hypot : ℚ → ℚ → ℚ) (p q : Particle)
    (hge : 0 ≤ hypot (p.x - q.x) (p.y - q.y))
    (hsq : hypot (p.x - q.x) (p.y - q.y) ^ 2 =
      (p.x - q.x) ^ 2 + (p.y - q.y) ^ 2) :
    linkContract hypot p q := by
  set d := hypot (p.x - q.x) (p.y - q.y) with hd
  have hopt : linkOpt hypot p q =
      if d < 120 then
        some (Event.line p.x p.y q.x q.y ⟨0, 194, 255, (1 - d / 120) * 0.35⟩ 1)
      else none := rfl
  have key : d < 120 ↔ (p.x - q.x) ^ 2 + (p.y - q.y) ^ 2 < 14400 := by
    rw [← hsq]
    constructor
    · intro h1
      nlinarith
    · intro h1
      nlinarith
  refine ⟨?_, ?_, ?_⟩
  · rw [hopt]
    by_cases hlt : d < 120
    · simp only [if_pos hlt, Option.isSome_some, true_iff]
      exact key.mp hlt
    · simp only [if_neg hlt, Option.isSome_none, Bool.false_eq_true, false_iff]
      exact fun hc => hlt (key.mpr hc)
  · intro heq
    have hnlt : ¬ d < 120 := fun hlt => by
      have := key.mp hlt
      linarith
    rw [hopt, if_neg hnlt]
  · intro e he
    rw [hopt] at he
    by_cases hlt : d < 120
    · rw [if_pos hlt] at he
      exact (Option.some.inj he).symm
    · rw [if_neg hlt] at he
      exact absurd he (by simp)

theorem C2_link_threshold_witness :
    0 ≤ (5 : ℚ) ∧ (5 : ℚ) ^ 2 = ((3 : ℚ) - 0) ^ 2 + ((4 : ℚ) - 0) ^ 2 ∧
    linkContract (fun _ _ => 5) ⟨3, 4, 0, 0, 1⟩ ⟨0, 0, 0, 0, 1⟩ :=
  ⟨by norm_num, by norm_num,
   C2_link_threshold (fun _ _ => 5) ⟨3, 4, 0, 0, 1⟩ ⟨0, 0, 0, 0, 1⟩
     (by norm_num) (by norm_num)⟩

/-- Claim C3: mount creates exactly 36 particles and neither a single
frame nor any number of frames (with arbitrary intervening resizes of
the logical dimensions) adds or removes a particle. -/
theorem C3_particle_count (rand : ℕ → ℚ) (winW winH : ℚ)
    (hypot : ℚ → ℚ → ℚ) (w h : ℚ) (ps : List Particle)
    (dims : ℕ → ℚ × ℚ) (n : ℕ) :
    (initParticles rand winW winH).length = 36 ∧
    ((step hypot w h ps).2).length = ps.length ∧
    (runFrames dims n ps).length = ps.length := by
  refine ⟨by simp [initParticles], ?_, ?_⟩
  · rw [(step_events hypot w h ps).2]
    simp
  · induction n with
    | zero => rfl
    | succ k ih => simp [runFrames, stepParticles_eq_map, ih]

/-- Claim C4: the frame body first clears the whole logical area, then
draws the inter-particle links — visiting exactly the ordered pairs of
the particle array in nested `i < j` order, using the positions from
before this frame's update — then updates and draws every particle, and
schedules the next frame only after all of that (the trailing event). -/
theorem C4_frame_order (hypot : ℚ → ℚ → ℚ) (w h : ℚ) (ps : List Particle) :
    (step hypot w h ps).1 =
      Event.clearRect 0 0 w h ::
        ((orderedPairs ps).filterMap (fun pr => linkOpt hypot pr.1 pr.2) ++
          (ps.map (updateParticle w h)).flatMap drawParticleCmds ++
          [Event.schedule]) ∧
    (step hypot w h ps).2 = ps.map (updateParticle w h) := by
  rw [← linkEvents_eq_orderedPairs]
  exact step_events hypot w h ps

/-- Claim C5 counterexample: the resize handler does not re-read the
device pixel ratio from the host environment.  With the ratio 1 at mount
and 2 at resize time, a 400-wide container gets a 400-pixel backing
buffer from the code, while a re-reading handler would produce 800. -/
theorem C5_counterexample :
    ¬ ∀ (currentDpr clientW clientH : ℚ) (s : Surface),
        resize clientW clientH s =
          resizeRereadingDpr currentDpr clientW clientH s := by
  intro hcl
  have h1 := congrArg Surface.bufW (hcl 2 400 300 (mountSurface 1))
  simp only [resize, resizeRereadingDpr, mountSurface] at h1
  norm_num at h1

/-- Claim C5 as amended: on every resize notification the renderer
recomputes the logical size from the container's current content box and
sets the physical backing buffer to the floor of the logical size
multiplied by the device pixel ratio captured once at mount (the ratio
is not re-read), reapplying the scaling transform; in particular a
400×300 container at mount-time ratio 2 yields an 800×600 buffer with
transform scale 2, and the next frame clears exactly the new logical
area. -/
theorem C5_resize_behavior (clientW clientH deviceDpr : ℚ) (s : Surface)
    (hypot : ℚ → ℚ → ℚ) (ps : List Particle) :
    (resize clientW clientH s).w = clientW ∧
    (resize clientW clientH s).h = clientH ∧
    (resize clientW clientH s).dpi = s.dpi ∧
    (resize clientW clientH s).bufW = ⌊clientW * s.dpi⌋ ∧
    (resize clientW clientH s).bufH = ⌊clientH * s.dpi⌋ ∧
    (resize clientW clientH s).tScale = s.dpi ∧
    (mountSurface deviceDpr).dpi = max 1 deviceDpr ∧
    (resize 400 300 (mountSurface 2)).bufW = 800 ∧
    (resize 400 300 (mountSurface 2)).bufH = 600 ∧
    (resize 400 300 (mountSurface 2)).tScale = 2 ∧
    ((step hypot clientW clientH ps).1).head? =
      some (Event.clearRect 0 0 clientW clientH) := by
  refine ⟨rfl, rfl, rfl, rfl, rfl, rfl, rfl, ?_, ?_, ?_, ?_⟩
  · simp only [resize, mountSurface]
    norm_num
  · simp only [resize, mountSurface]
    norm_num
  · simp only [resize, mountSurface]
    norm_num
  · rw [(step_events hypot clientW clientH ps).1]
    rfl

theorem runStep_pending (hypot : ℚ → ℚ → ℚ) (s : Sys) :
    (runStep hypot s).pending = some (runStep hypot s).rafRef := rfl

theorem fire_pending (hypot : ℚ → ℚ → ℚ) (s : Sys)
    (hs : s.pending = some s.rafRef) :
    (fire hypot s).pending = some (fire hypot s).rafRef := by
  unfold fire
  rw [hs]
  exact runStep_pending hypot _

theorem fireN_pending (hypot : ℚ → ℚ → ℚ) (n : ℕ) (s : Sys)
    (hs : s.pending = some s.rafRef) :
    (fireN hypot n s).pending = some (fireN hypot n s).rafRef := by
  induction n with
  | zero => exact hs
  | succ k ih => exact fire_pending hypot _ ih

theorem fire_of_pending_none (hypot : ℚ → ℚ → ℚ) (s : Sys)
    (hs : s.pending = none) : fire hypot s = s := by
  unfold fire
  rw [hs]

theorem unmount_pending (s : Sys) (hs : s.pending = some s.rafRef) :
    (unmount s).pending = none := by
  simp [unmount, hs]

theorem unmount_stepCount (s : Sys) : (unmount s).stepCount = s.stepCount := by
  unfold unmount
  split_ifs <;> rfl

theorem unmount_log (s : Sys) : (unmount s).log = s.log := by
  unfold unmount
  split_ifs <;> rfl

theorem fire_stepCount (hypot : ℚ → ℚ → ℚ) (s : Sys)
    (hs : s.pending = some s.rafRef) :
    (fire hypot s).stepCount = s.stepCount + 1 := by
  unfold fire
  rw [hs]
  rfl

theorem fireN_stepCount (hypot : ℚ → ℚ → ℚ) (n : ℕ) (s : Sys)
    (hs : s.pending = some s.rafRef) :
    (fireN hypot n s).stepCount = s.stepCount + n := by
  induction n with
  | zero => rfl
  | succ k ih =>
    have hk := fireN_pending hypot k s hs
    show (fire hypot (fireN hypot k s)).stepCount = s.stepCount + (k + 1)
    rw [fire_stepCount hypot _ hk, ih]
    ring

theorem fireN_of_pending_none (hypot : ℚ → ℚ → ℚ) (m : ℕ) (s : Sys)
    (hs : s.pending = none) : fireN hypot m s = s := by
  induction m with
  | zero => rfl
  | succ k ih =>
    show fire hypot (fireN hypot k s) = s
    rw [ih, fire_of_pending_none hypot s hs]

theorem mount_pending (hypot : ℚ → ℚ → ℚ) (ps : List Particle) (w h : ℚ) :
    (mount hypot ps w h).pending = some (mount hypot ps w h).rafRef :=
  runStep_pending hypot _

/-- Claim C6: after unmount no further frame runs and no further drawing
occurs.  For every execution mount → `n` scheduler firings → unmount:
the pending animation frame is cancelled, the resize observer is
detached, any number of further scheduler firings leave the state
untouched (so `step` never runs again and the drawing log is frozen),
and `step` ran exactly `n + 1` times (once synchronously at mount plus
once per fired frame). -/
theorem C6_no_frames_after_unmount (hypot : ℚ → ℚ → ℚ) (ps : List Particle)
    (w h : ℚ) (n m : ℕ) :
    (unmount (fireN hypot n (mount hypot ps w h))).pending = none ∧
    (unmount (fireN hypot n (mount hypot ps w h))).roConnected = false ∧
    fireN hypot m (unmount (fireN hypot n (mount hypot ps w h))) =
      unmount (fireN hypot n (mount hypot ps w h)) ∧
    (unmount (fireN hypot n (mount hypot ps w h))).stepCount = n + 1 ∧
    (fireN hypot m (unmount (fireN hypot n (mount hypot ps w h)))).log =
      (unmount (fireN hypot n (mount hypot ps w h))).log := by
  have hinv := fireN_pending hypot n (mount hypot ps w h)
    (mount_pending hypot ps w h)
  have hnone := unmount_pending _ hinv
  refine ⟨hnone, ?_, fireN_of_pending_none hypot m _ hnone, ?_, ?_⟩
  · unfold unmount
    split_ifs
    all_goals rfl
  · rw [unmount_stepCount, fireN_stepCount hypot n _ (mount_pending hypot ps w h)]
    have h1 : (mount hypot ps w h).stepCount = 1 := rfl
    omega
  · rw [fireN_of_pending_none hypot m _ hnone]

theorem getD_stepParticles (w h : ℚ) (ps : List Particle) (i : ℕ)
    (hi : i < ps.length) :
    (stepParticles w h ps).getD i default =
      updateParticle w h (ps.getD i default) := by
  rw [stepParticles_eq_map]
  have h2 : i < (ps.map (updateParticle w h)).length := by simpa using hi
  rw [List.getD_eq_getElem _ _ h2, List.getD_eq_getElem _ _ hi,
    List.getElem_map]

theorem getD_field_step (f : Particle → ℚ)
    (hf : ∀ w h p, f (updateParticle w h p) = f p) (w h : ℚ)
    (ps : List Particle) (i : ℕ) :
    f ((stepParticles w h ps).getD i default) = f (ps.getD i default) := by
  rcases lt_or_ge i ps.length with hi | hi
  · rw [getD_stepParticles w h ps i hi, hf]
  · rw [stepParticles_eq_map,
      List.getD_eq_default _ _ (by simpa using hi),
      List.getD_eq_default _ _ hi]

theorem getD_field_runFrames (f : Particle → ℚ)
    (hf : ∀ w h p, f (updateParticle w h p) = f p) (dims : ℕ → ℚ × ℚ)
    (n : ℕ) (ps : List Particle) (i : ℕ) :
    f ((runFrames dims n ps).getD i default) = f (ps.getD i default) := by
  induction n with
  | zero => rfl
  | succ k ih =>
    show f ((stepParticles (dims k).1 (dims k).2
      (runFrames dims k ps)).getD i default) = _
    rw [getD_field_step f hf, ih]

/-- Claim C7: velocity components and radius are assigned at creation
and never modified afterwards — across arbitrarily many frames only the
position fields change, exactly one update application per frame. -/
theorem C7_static_velocity_radius (dims : ℕ → ℚ × ℚ) (n : ℕ)
    (ps : List Particle) (i : ℕ) (w h : ℚ) (p : Particle)
    (hi : i < ps.length) :
    staticFieldsContract dims n ps i w h p := by
  refine ⟨?_, ?_, ?_, rfl, rfl, rfl, getD_stepParticles w h ps i hi⟩
  · exact getD_field_runFrames (fun q => q.vx) (fun _ _ _ => rfl) dims n ps i
  · exact getD_field_runFrames (fun q => q.vy) (fun _ _ _ => rfl) dims n ps i
  · exact getD_field_runFrames (fun q => q.r) (fun _ _ _ => rfl) dims n ps i

theorem C7_static_velocity_radius_witness :
    (0 : ℕ) < ([⟨7, 8, 1, -1, 2⟩] : List Particle).length ∧
    staticFieldsContract (fun _ => (100, 80)) 1000 [⟨7, 8, 1, -1, 2⟩] 0
      100 80 ⟨0, 0, 3, 4, 5⟩ :=
  ⟨by simp,
   C7_static_velocity_radius (fun _ => (100, 80)) 1000 [⟨7, 8, 1, -1, 2⟩] 0
     100 80 ⟨0, 0, 3, 4, 5⟩ (by simp)⟩

theorem updateParticle_fixpoint :
    updateParticle 200 200 ⟨50, 50, 0, 0, 2⟩ = ⟨50, 50, 0, 0, 2⟩ := by
  unfold updateParticle wrapCoord wrapLow
  norm_num

/-- Claim C8 counterexample: it is not the case that every radial
gradient drawn in a frame reaches its transparent stop at the drawn
disc's outer edge.  A particle of radius 2 yields a disc of radius 10
whose gradient reaches transparency at the fixed radius 16. -/
theorem C8_counterexample :
    ¬ ∀ (hypot : ℚ → ℚ → ℚ) (w h : ℚ) (ps : List Particle)
        (cx cy dR gR : ℚ) (c0 c1 : Rgba),
        Event.gradientDisc cx cy dR gR c0 c1 ∈ (step hypot w h ps).1 →
          gR = dR := by
  intro hcl
  have hmem : Event.gradientDisc 50 50 10 16 ⟨124, 58, 237, 0.55⟩
      ⟨124, 58, 237, 0⟩ ∈ (step (fun _ _ => 0) 200 200 [⟨50, 50, 0, 0, 2⟩]).1 := by
    rw [(step_events (fun _ _ => 0) 200 200 [⟨50, 50, 0, 0, 2⟩]).1]
    have hlink : linkEvents (fun _ _ => 0) [⟨50, 50, 0, 0, 2⟩] = [] := rfl
    rw [hlink]
    simp only [List.map_cons, List.map_nil, updateParticle_fixpoint,
      List.flatMap_cons, List.flatMap_nil, drawParticleCmds]
    norm_num
  have h1 := hcl (fun _ _ => 0) 200 200 [⟨50, 50, 0, 0, 2⟩] 50 50 10 16
    ⟨124, 58, 237, 0.55⟩ ⟨124, 58, 237, 0⟩ hmem
  norm_num at h1

/-- Claim C8 as amended: for every particle in every frame, after its
position update the renderer draws a radial-gradient disc centered at
the updated position whose disc radius is `5×` the particle's radius,
fading from violet `rgba(124,58,237)` at 55% opacity at the center to
fully transparent at the fixed gradient radius of 16 logical units
(which lies strictly beyond the disc's outer edge whenever the radius is
below 3.2, as it is for every initialised particle), immediately
followed by a solid disc of the particle's radius in cyan
`rgba(0,194,255)` at 90% opacity. -/
theorem C8_particle_rendering (hypot : ℚ → ℚ → ℚ) (w h : ℚ)
    (ps : List Particle) (p : Particle) (hp : p ∈ ps) :
    gradientContract hypot w h ps p ∧
    (p.r < 3.2 → (updateParticle w h p).r * 5 < 16) := by
  constructor
  · obtain ⟨s, t, rfl⟩ := List.mem_iff_append.mp hp
    refine ⟨Event.clearRect 0 0 w h ::
        (linkEvents hypot (s ++ p :: t) ++
          (s.map (updateParticle w h)).flatMap drawParticleCmds),
      (t.map (updateParticle w h)).flatMap drawParticleCmds ++
        [Event.schedule], ?_⟩
    rw [(step_events hypot w h (s ++ p :: t)).1]
    simp [drawParticleCmds, List.flatMap_append]
  · intro h32
    rw [updateParticle_r]
    linarith

theorem C8_particle_rendering_witness :
    (⟨50, 50, 0, 0, 2⟩ : Particle) ∈ ([⟨50, 50, 0, 0, 2⟩] : List Particle) ∧
    (gradientContract (fun _ _ => 0) 200 200 [⟨50, 50, 0, 0, 2⟩]
        ⟨50, 50, 0, 0, 2⟩ ∧
      ((⟨50, 50, 0, 0, 2⟩ : Particle).r < 3.2 →
        (updateParticle 200 200 ⟨50, 50, 0, 0, 2⟩).r * 5 < 16)) :=
  ⟨by simp,
   C8_particle_rendering (fun _ _ => 0) 200 200 [⟨50, 50, 0, 0, 2⟩]
     ⟨50, 50, 0, 0, 2⟩ (by simp)⟩

/-- Claim C9: mount initialises exactly 36 particles with positions
uniformly randomized over the viewport `[0, winW) × [0, winH)`, velocity
components each in `[-0.125, 0.125)` and radius in `[1.2, 3)`. -/
theorem C9_init_ranges (rand : ℕ → ℚ) (winW winH : ℚ)
    (hr : validRand rand) (hw : 0 < winW) (hh : 0 < winH) :
    initContract rand winW winH := by
  constructor
  · simp [initParticles]
  · intro p hp
    simp only [initParticles, List.mem_map, List.mem_range] at hp
    obtain ⟨k, -, rfl⟩ := hp
    have h0 := hr (5 * k)
    have h1 := hr (5 * k + 1)
    have h2 := hr (5 * k + 2)
    have h3 := hr (5 * k + 3)
    have h4 := hr (5 * k + 4)
    unfold mkParticle
    refine ⟨?_, ?_, ?_, ?_, ?_, ?_, ?_, ?_, ?_, ?_⟩
    · exact mul_nonneg h0.1 (le_of_lt hw)
    · nlinarith [h0.2]
    · exact mul_nonneg h1.1 (le_of_lt hh)
    · nlinarith [h1.2]
    · nlinarith [h2.1]
    · nlinarith [h2.2]
    · nlinarith [h3.1]
    · nlinarith [h3.2]
    · nlinarith [h4.1]
    · nlinarith [h4.2]

theorem C9_init_ranges_witness :
    validRand (fun _ => 1 / 2) ∧ 0 < (100 : ℚ) ∧ 0 < (80 : ℚ) ∧
    initContract (fun _ => 1 / 2) 100 80 :=
  ⟨fun n => by norm_num, by norm_num, by norm_num,
   C9_init_ranges (fun _ => 1 / 2) 100 80 (fun n => by norm_num)
     (by norm_num) (by norm_num)⟩

/-- Claim C10: initial positions are sampled from the window's inner
dimensions rather than the surface's own logical size, so just after
mount a particle may lie outside the surface's expanded box
`[-20, w+20] × [-20, h+20]`; the wraparound invariant is only
established by the particle's first update, which maps any out-of-range
coordinate to the opposite margin edge. -/
theorem C10_init_outside_box (w h : ℚ) (hw : 0 ≤ w) (hh : 0 ≤ h) :
    lateBoxContract w h := by
  constructor
  · refine ⟨fun _ => 1 / 2, 2 * w + 100, 100, fun n => by norm_num,
      mkParticle (1 / 2) (1 / 2) (1 / 2) (1 / 2) (1 / 2) (2 * w + 100) 100,
      ?_, ?_⟩
    · simp only [initParticles, List.mem_map, List.mem_range]
      refine ⟨0, ?_, ?_⟩
      · norm_num
      · norm_num
    · unfold outsideBox mkParticle
      right
      left
      nlinarith
  · intro p
    exact wrapContract_of_nonneg w h p hw hh

theorem C10_init_outside_box_witness :
    0 ≤ (100 : ℚ) ∧ 0 ≤ (50 : ℚ) ∧ lateBoxContract 100 50 :=
  ⟨by norm_num, by norm_num, C10_init_outside_box 100 50 (by norm_num) (by norm_num)⟩

end ParticleField
